import Mathlib

/-!
Verification of the AI-vs-Human text detector (`src/api/detect.py`) against its
natural-language specification.

The whole analysis pipeline of `AIDetectorModel` is embedded shallowly:

* Python strings are modelled as `List Char`.  The embedding of the regex
  character class `\w` (`isWordChar`) covers its ASCII fragment
  (`[A-Za-z0-9_]`); Unicode word characters beyond ASCII are not modelled, so
  the embedding is exact on ASCII text.
* All feature arithmetic, which Python performs on binary64 floats, is
  modelled exactly over `ℚ` (every feature value is a ratio of counts); only
  the sigmoid layer of the scorer lives in `ℝ`.
* Python `round(x, d)` is modelled as ideal round-half-to-even on the exact
  value (`pyRound`); binary-float representation artifacts are not modelled.
* The regex calls `re.findall(r"\b[a-zA-Z]+\b", ...)` and
  `re.findall(r"\b\w+'[a-z]+\b", ...)` are modelled by character scanners
  (`findTokensF`, `countContrF`) that reproduce the leftmost, greedy,
  non-overlapping matching of the Python engine.  Both use a fuel argument
  equal to the length of the scanned list: every step consumes at least one
  character, so the fuel never runs out; fuel recursion keeps the functions
  structurally recursive and kernel-evaluable.
* Python dicts keyed by feature names are modelled as association lists
  `List (String × ℚ)` in insertion order; the absence of a key in the result
  dict of `predict` is modelled by `Option`.
-/

namespace AIDetect

/-- ASCII fragment of the regex class `\w` used by `re` on Python 3 strings:
letters, digits and underscore. -/
def isWordChar (c : Char) : Bool :=
  c.isAlphanum || c == '_'

/-- The sentence-terminator class `[.!?]` of `_split_sentences`. -/
def isTermChar (c : Char) : Bool :=
  c == '.' || c == '!' || c == '?'

/-- ASCII whitespace removed by Python `str.strip()`. -/
def isPySpace (c : Char) : Bool :=
  c == ' ' || c == '\t' || c == '\n' || c == '\r' || c == '\x0b' || c == '\x0c'

/-- The class `[a-z]` of the contraction regex. -/
def isLowerAZ (c : Char) : Bool :=
  'a' ≤ c && c ≤ 'z'

/-- Python `str.strip()`: drop leading and trailing whitespace. -/
def trim (l : List Char) : List Char :=
  ((l.dropWhile isPySpace).reverse.dropWhile isPySpace).reverse

/-- Split a character list at every character satisfying `p`, keeping empty
chunks, as `re.split` does on a single-character class.  (`_split_sentences`
splits on `[.!?]+`, i.e. on runs of terminators; splitting at every single
terminator instead only inserts extra empty chunks, which the subsequent
strip-and-filter step removes, so the two agree after that step.) -/
def splitChars (p : Char → Bool) : List Char → List (List Char)
  | [] => [[]]
  | c :: rest =>
    let r := splitChars p rest
    if p c then [] :: r else (c :: r.headI) :: r.tail

/-- `AIDetectorModel._split_sentences`: split on terminators, strip each
piece, drop the pieces that are empty after stripping. -/
def split_sentences (text : List Char) : List (List Char) :=
  ((splitChars isTermChar text).map trim).filter (fun s => !s.isEmpty)

/-- Scanner for `re.findall(r"\b[a-zA-Z]+\b", text)`.

A match can only start where a word boundary precedes a letter, i.e. at a
position whose previous character is not a word character (`prevW = false`).
There, `[a-zA-Z]+` greedily takes the maximal alphabetic run; the final `\b`
requires the next character to be a non-word character or the end of input.
Backtracking cannot rescue a failed match (shortening the run only moves the
boundary between two word characters), so on failure the engine advances one
character.  After a success the scan resumes right after the match
(non-overlapping matches).  `fuel` bounds the number of steps; each step
consumes at least one character. -/
def findTokensF : Nat → Bool → List Char → List (List Char)
  | 0, _, _ => []
  | _ + 1, _, [] => []
  | fuel + 1, prevW, c :: rest =>
    if !prevW && c.isAlpha then
      let run := (c :: rest).takeWhile Char.isAlpha
      let rest' := (c :: rest).dropWhile Char.isAlpha
      if rest'.head?.all (fun d => !isWordChar d) then
        run :: findTokensF fuel true rest'
      else
        findTokensF fuel true rest
    else
      findTokensF fuel (isWordChar c) rest

/-- `AIDetectorModel._tokenize`: `re.findall(r"\b[a-zA-Z]+\b", text)`. -/
def tokenize (text : List Char) : List (List Char) :=
  findTokensF text.length false text

/-- The word list lowered: Python `word.lower()` (ASCII). -/
def lowerList (w : List Char) : List Char :=
  w.map Char.toLower

/-- Python `' '.join(ws)`. -/
def joinSpace (ws : List (List Char)) : List Char :=
  List.intercalate [' '] ws

/-- Scanner for `re.findall(r"\b\w+'[a-z]+\b", text)` (on lowered text).

A match starts at a word boundary before a word character; `\w+` greedily
takes the maximal word-character run (shortening it cannot make the next
character an apostrophe, so greedy is exact); then a literal apostrophe, then
`[a-z]+` greedily takes the maximal lowercase run, which must be nonempty and
followed by a non-word character or the end (`\b`).  On failure the engine
advances one character; after a success the scan resumes after the match. -/
def countContrF : Nat → Bool → List Char → Nat
  | 0, _, _ => 0
  | _ + 1, _, [] => 0
  | fuel + 1, prevW, c :: rest =>
    if !prevW && isWordChar c then
      match (c :: rest).dropWhile isWordChar with
      | c2 :: rest2 =>
        if c2 == '\x27' then
          let r2 := rest2.takeWhile isLowerAZ
          let rest3 := rest2.dropWhile isLowerAZ
          if !r2.isEmpty && rest3.head?.all (fun d => !isWordChar d) then
            1 + countContrF fuel true rest3
          else countContrF fuel true rest
        else countContrF fuel true rest
      | [] => countContrF fuel true rest
    else countContrF fuel (isWordChar c) rest

/-- Number of contraction matches of `re.findall(r"\b\w+'[a-z]+\b", l)`. -/
def countContractions (l : List Char) : Nat :=
  countContrF l.length false l

/-- The punctuation class `'.,!?;:"-()[]{}'` of feature 3. -/
def punctChars : List Char :=
  ['.', ',', '!', '?', ';', ':', '\"', '-', '(', ')', '[', ']', '\x7b', '\x7d']

/-- The clause-marker class `',;:'` of feature 8. -/
def clauseChars : List Char :=
  [',', ';', ':']

/-- The 18 conjunctions of feature 4. -/
def conjunctions : List (List Char) :=
  (["and", "but", "or", "so", "yet", "for", "nor", "although",
    "because", "since", "while", "whereas", "however", "therefore",
    "moreover", "furthermore", "additionally", "consequently"]).map String.toList

/-- The 10 first-person pronouns of feature 5. -/
def firstPerson : List (List Char) :=
  (["i", "me", "my", "mine", "myself", "we", "us", "our", "ours",
    "ourselves"]).map String.toList

/-- The 7 passive-voice indicators of feature 6. -/
def passiveIndicators : List (List Char) :=
  (["was", "were", "been", "being", "is", "are", "am"]).map String.toList

/-- The informal markers of feature 10 (the source lists 17 words). -/
def informalMarkers : List (List Char) :=
  (["gonna", "wanna", "kinda", "sorta", "yeah", "yep",
    "nope", "ok", "okay", "hey", "hi", "well", "like",
    "actually", "basically", "literally", "totally"]).map String.toList

/-- `AIDetectorModel._calculate_repetition`. -/
def calculate_repetition (words : List (List Char)) : ℚ :=
  if words.length < 4 then 0
  else
    let trigrams := (List.range (words.length - 2)).map
      (fun i => lowerList (joinSpace ((words.drop i).take 3)))
    if trigrams = [] then 0
    else 1 - (trigrams.dedup.length : ℚ) / (trigrams.length : ℚ)

/-- `AIDetectorModel._calculate_formality`. -/
def calculate_formality (text : List Char) (words : List (List Char)) : ℚ :=
  if words = [] then 0.5
  else
    let contraction_ratio : ℚ :=
      (countContractions (text.map Char.toLower) : ℚ) / (words.length : ℚ)
    let informal_count := words.countP (fun w => informalMarkers.contains (lowerList w))
    let informal_ratio : ℚ := (informal_count : ℚ) / (words.length : ℚ)
    let formality := 1 - (contraction_ratio * 2 + informal_ratio)
    max 0 (min 1 formality)

/-- The values of the 10 features, in the order `extract_features` inserts
them into its dict. -/
structure FeatureVals where
  avg_sentence_length : ℚ
  vocabulary_richness : ℚ
  punctuation_density : ℚ
  conjunction_freq : ℚ
  first_person_freq : ℚ
  passive_voice_freq : ℚ
  avg_word_length : ℚ
  sentence_complexity : ℚ
  repetition_score : ℚ
  formality_score : ℚ
deriving DecidableEq

/-- The feature dict as an association list in insertion order. -/
def featureList (f : FeatureVals) : List (String × ℚ) :=
  [("avg_sentence_length", f.avg_sentence_length),
   ("vocabulary_richness", f.vocabulary_richness),
   ("punctuation_density", f.punctuation_density),
   ("conjunction_freq", f.conjunction_freq),
   ("first_person_freq", f.first_person_freq),
   ("passive_voice_freq", f.passive_voice_freq),
   ("avg_word_length", f.avg_word_length),
   ("sentence_complexity", f.sentence_complexity),
   ("repetition_score", f.repetition_score),
   ("formality_score", f.formality_score)]

/-- `AIDetectorModel.extract_features`.  Returns the empty list for
degenerate input, otherwise the 10-entry feature dict. -/
def extract_features (text : List Char) : List (String × ℚ) :=
  if text = [] ∨ trim text = [] then []
  else
    let sentences := split_sentences text
    let words := tokenize text
    if words.length = 0 ∨ sentences.length = 0 then []
    else
      let sentence_lengths := sentences.map (fun s => (tokenize s).length)
      featureList
        { avg_sentence_length :=
            if sentence_lengths ≠ [] then
              ((sentence_lengths.sum : ℚ) / (sentence_lengths.length : ℚ))
            else 0
          vocabulary_richness :=
            if words ≠ [] then
              (((words.map lowerList).dedup.length : ℚ) / (words.length : ℚ))
            else 0
          punctuation_density :=
            if words ≠ [] then
              ((text.countP (fun c => punctChars.contains c) : ℚ) / (words.length : ℚ))
            else 0
          conjunction_freq :=
            if words ≠ [] then
              ((words.countP (fun w => conjunctions.contains (lowerList w)) : ℚ) /
                (words.length : ℚ))
            else 0
          first_person_freq :=
            if words ≠ [] then
              ((words.countP (fun w => firstPerson.contains (lowerList w)) : ℚ) /
                (words.length : ℚ))
            else 0
          passive_voice_freq :=
            if words ≠ [] then
              ((words.countP (fun w => passiveIndicators.contains (lowerList w)) : ℚ) /
                (words.length : ℚ))
            else 0
          avg_word_length :=
            if words ≠ [] then
              (((words.map List.length).sum : ℚ) / (words.length : ℚ))
            else 0
          sentence_complexity :=
            if sentences ≠ [] then
              ((text.countP (fun c => clauseChars.contains c) : ℚ) / (sentences.length : ℚ))
            else 0
          repetition_score := calculate_repetition words
          formality_score := calculate_formality text words }

/-- The pre-trained coefficient table of `AIDetectorModel.__init__`, in dict
insertion order. -/
def coefficients : List (String × ℚ) :=
  [("avg_sentence_length", 0.025),
   ("vocabulary_richness", -1.5),
   ("punctuation_density", -0.5),
   ("conjunction_freq", 0.6),
   ("first_person_freq", -1.5),
   ("passive_voice_freq", 0.8),
   ("avg_word_length", 0.4),
   ("sentence_complexity", 0.5),
   ("repetition_score", 1.0),
   ("formality_score", 1.2)]

/-- The intercept of `AIDetectorModel.__init__`. -/
def intercept : ℚ := 0.4

/-- The inline per-feature normalization of `AIDetectorModel.predict`
(lines 182-187). -/
def normalize_feature (name : String) (value : ℚ) : ℚ :=
  if name = "avg_sentence_length" then (value - 15) / 10
  else if name = "avg_word_length" then (value - 5) / 2
  else if name = "sentence_complexity" then (value - 1) / 2
  else value

/-- The logit loop of `AIDetectorModel.predict` (lines 177-189): fold over
the coefficient table, adding `coefficient * normalized value` for every
feature name present in the feature dict. -/
def logit (features : List (String × ℚ)) : ℚ :=
  coefficients.foldl
    (fun acc p =>
      match features.lookup p.1 with
      | some value => acc + p.2 * normalize_feature p.1 value
      | none => acc)
    intercept

/-- `ai_probability = 1 / (1 + math.exp(-logit))` (line 192). -/
noncomputable def ai_probability_raw (features : List (String × ℚ)) : ℝ :=
  1 / (1 + Real.exp (-((logit features : ℚ) : ℝ)))

/-- `human_probability = 1 - ai_probability` (line 193). -/
noncomputable def human_probability_raw (features : List (String × ℚ)) : ℝ :=
  1 - ai_probability_raw features

/-- The decision rule of `AIDetectorModel.predict` (lines 196-204), applied
by `predict` to the probability pair: returns the prediction label and the
(unrounded, 0-1 scale) confidence. -/
noncomputable def decision_rule (ai_probability human_probability : ℝ) : String × ℝ :=
  if ai_probability > 0.6 then ("AI", ai_probability)
  else if human_probability > 0.6 then ("Human", human_probability)
  else ("Uncertain", max ai_probability human_probability)

/-- Ideal round-half-to-even of Python `round` applied to the exact value. -/
def roundHalfEven {α : Type*} [LinearOrderedField α] [FloorRing α] (r : α) : ℤ :=
  if r - Int.floor r < 1 / 2 then Int.floor r
  else if 1 / 2 < r - Int.floor r then Int.floor r + 1
  else if Int.floor r % 2 = 0 then Int.floor r else Int.floor r + 1

/-- Python `round(x, d)` on the exact value. -/
def pyRound {α : Type*} [LinearOrderedField α] [FloorRing α] (x : α) (d : Nat) : α :=
  ((roundHalfEven (x * 10 ^ d) : ℤ) : α) / 10 ^ d

/-- Python `str.lower()` (ASCII). -/
def lowerString (s : String) : String :=
  s.map Char.toLower

/-- The result dict of `AIDetectorModel.predict`.  `word_count = none`
models the absence of the `'word_count'` key (the degenerate branch of
`predict` does not put it in the dict). -/
structure ScoreResult where
  prediction : String
  confidence : ℝ
  ai_probability : ℝ
  human_probability : ℝ
  word_count : Option Nat
  features : List (String × ℚ)
  message : String

/-- `AIDetectorModel.predict`. -/
noncomputable def predict (text : List Char) : ScoreResult :=
  let features := extract_features text
  if features = [] then
    { prediction := "Unknown"
      confidence := 0.0
      ai_probability := 0.5
      human_probability := 0.5
      word_count := none
      features := []
      message := "Text too short or invalid for analysis" }
  else
    let ai_probability := ai_probability_raw features
    let human_probability := human_probability_raw features
    let pc := decision_rule ai_probability human_probability
    let word_count := (tokenize text).length
    { prediction := pc.1
      confidence := pyRound (pc.2 * 100) 1
      ai_probability := pyRound (ai_probability * 100) 1
      human_probability := pyRound (human_probability * 100) 1
      word_count := some word_count
      features :=
        [("avg_sentence_length", pyRound ((features.lookup "avg_sentence_length").getD 0) 2),
         ("vocabulary_richness", pyRound (((features.lookup "vocabulary_richness").getD 0) * 100) 1),
         ("formality_score", pyRound (((features.lookup "formality_score").getD 0) * 100) 1)]
      message := "Analysis complete. The text appears to be " ++ lowerString pc.1 ++ "-"
        ++ (if pc.1 = "AI" then "generated" else "written") ++ "." }

/-- Modelled from the spec: the tokenizer the spec describes, maximal
alphabetic runs matching `[a-zA-Z]+` (claim C3 as stated).  For comparison
with `tokenize`. -/
def alphaRuns (text : List Char) : List (List Char) :=
  (splitChars (fun c => !c.isAlpha) text).filter (fun r => !r.isEmpty)

/-- The amended characterization of `tokenize`: the maximal word-character
runs of the text that consist entirely of ASCII letters (equivalently, the
maximal alphabetic runs not adjacent to a digit or underscore). -/
def tokensSpec (text : List Char) : List (List Char) :=
  (splitChars (fun c => !isWordChar c) text).filter
    (fun r => !r.isEmpty && r.all Char.isAlpha)

/-- Spec formulation of the trigram list of `_calculate_repetition`: sliding
windows of 3 consecutive words, joined by single spaces, lowercased. -/
def windows3 {α : Type*} : List α → List (List α)
  | a :: b :: c :: rest => [a, b, c] :: windows3 (b :: c :: rest)
  | _ => []

/-- Spec formulation of the lowercased word-trigram multiset. -/
def specTrigrams (words : List (List Char)) : List (List Char) :=
  (windows3 words).map (fun w => lowerList (joinSpace w))

/-! ### Structure lemmas about `splitChars` -/

theorem splitChars_ne_nil (p : Char → Bool) (l : List Char) : splitChars p l ≠ [] := by
  cases l with
  | nil => simp [splitChars]
  | cons c rest =>
    simp only [splitChars]
    split <;> simp

theorem mem_of_mem_splitChars {p : Char → Bool} {c : Char} :
    ∀ {l r : List Char}, r ∈ splitChars p l → c ∈ r → c ∈ l := by
  intro l
  induction l with
  | nil =>
    intro r hr hc
    simp [splitChars] at hr
    subst hr
    simp at hc
  | cons d t ih =>
    intro r hr hc
    simp only [splitChars] at hr
    by_cases hd : p d
    · rw [if_pos hd] at hr
      rcases List.mem_cons.mp hr with h | h
      · subst h; simp at hc
      · exact List.mem_cons_of_mem _ (ih h hc)
    · rw [if_neg hd] at hr
      rcases List.mem_cons.mp hr with h | h
      · subst h
        rcases List.mem_cons.mp hc with h2 | h2
        · exact h2 ▸ List.mem_cons_self _ _
        · obtain ⟨s, ss, hs⟩ := List.exists_cons_of_ne_nil (splitChars_ne_nil p t)
          have hmem : (splitChars p t).headI ∈ splitChars p t := by rw [hs]; simp
          exact List.mem_cons_of_mem _ (ih hmem h2)
      · exact List.mem_cons_of_mem _ (ih (List.mem_of_mem_tail h) hc)

theorem exists_mem_splitChars {p : Char → Bool} {c : Char} :
    ∀ {l : List Char}, c ∈ l → p c = false → ∃ r ∈ splitChars p l, c ∈ r := by
  intro l
  induction l with
  | nil => intro hc; simp at hc
  | cons d t ih =>
    intro hc hp
    simp only [splitChars]
    by_cases hd : p d
    · rw [if_pos hd]
      rcases List.mem_cons.mp hc with h | h
      · subst h; rw [hp] at hd; exact absurd hd (by simp)
      · obtain ⟨r, hr, hcr⟩ := ih h hp
        exact ⟨r, List.mem_cons_of_mem _ hr, hcr⟩
    · rw [if_neg hd]
      rcases List.mem_cons.mp hc with h | h
      · subst h
        exact ⟨c :: (splitChars p t).headI, List.mem_cons_self _ _, List.mem_cons_self _ _⟩
      · obtain ⟨r, hr, hcr⟩ := ih h hp
        obtain ⟨s, ss, hs⟩ := List.exists_cons_of_ne_nil (splitChars_ne_nil p t)
        rw [hs]
        rw [hs] at hr
        show ∃ r ∈ (d :: s) :: ss, c ∈ r
        rcases List.mem_cons.mp hr with h2 | h2
        · subst h2
          exact ⟨d :: r, List.mem_cons_self _ _, List.mem_cons_of_mem _ hcr⟩
        · exact ⟨r, List.mem_cons_of_mem _ h2, hcr⟩

theorem splitChars_append_run {R l' : List Char}
    (h : ∀ c ∈ R, isWordChar c = true) :
    splitChars (fun c => !isWordChar c) (R ++ l') =
      (R ++ (splitChars (fun c => !isWordChar c) l').headI) ::
        (splitChars (fun c => !isWordChar c) l').tail := by
  induction R with
  | nil =>
    obtain ⟨s, ss, hs⟩ :=
      List.exists_cons_of_ne_nil (splitChars_ne_nil (fun c => !isWordChar c) l')
    simp [hs]
  | cons c R ih =>
    have hc : isWordChar c = true := h c (List.mem_cons_self _ _)
    have ih' := ih (fun d hd => h d (List.mem_cons_of_mem _ hd))
    have step : splitChars (fun c => !isWordChar c) ((c :: R) ++ l') =
        (c :: (splitChars (fun c => !isWordChar c) (R ++ l')).headI) ::
          (splitChars (fun c => !isWordChar c) (R ++ l')).tail := by
      rw [List.cons_append]
      show (if (!isWordChar c) = true then [] :: splitChars (fun c => !isWordChar c) (R ++ l')
        else (c :: (splitChars (fun c => !isWordChar c) (R ++ l')).headI) ::
          (splitChars (fun c => !isWordChar c) (R ++ l')).tail) = _
      rw [if_neg (by simp [hc])]
    rw [step, ih']
    simp

/-! ### Lemmas about `tokensSpec` -/

theorem tokensSpec_sep {c : Char} (rest : List Char) (h : isWordChar c = false) :
    tokensSpec (c :: rest) = tokensSpec rest := by
  simp only [tokensSpec, splitChars, h]
  simp

theorem tokensSpec_append_run {R l' : List Char} (hR : R ≠ [])
    (hw : ∀ c ∈ R, isWordChar c = true)
    (hl' : l'.head?.all (fun d => !isWordChar d) = true) :
    tokensSpec (R ++ l') =
      (if R.all Char.isAlpha then [R] else []) ++ tokensSpec l' := by
  cases l' with
  | nil =>
    rw [tokensSpec, splitChars_append_run hw]
    simp only [splitChars]
    simp [tokensSpec, splitChars, List.filter, hR, List.isEmpty_iff]
    split <;> simp_all
  | cons d t =>
    have hd : isWordChar d = false := by
      simpa using hl'
    rw [tokensSpec, splitChars_append_run hw]
    simp only [splitChars, hd]
    simp only [Bool.not_false, if_pos]
    rw [tokensSpec_sep t hd]
    simp [tokensSpec, List.filter, hR, List.isEmpty_iff]
    split <;> simp_all

/-! ### Auxiliary character and `takeWhile`/`dropWhile` facts -/

theorem isWordChar_of_isAlpha {c : Char} (h : c.isAlpha = true) : isWordChar c = true := by
  simp [isWordChar, Char.isAlphanum, h]

theorem all_takeWhile (p : Char → Bool) (l : List Char) : (l.takeWhile p).all p = true := by
  induction l with
  | nil => rfl
  | cons c t ih =>
    by_cases h : p c <;> simp [List.takeWhile_cons, h, ih]

theorem head?_dropWhile_all (p : Char → Bool) (l : List Char) :
    ((l.dropWhile p).head?).all (fun d => !p d) = true := by
  induction l with
  | nil => rfl
  | cons c t ih =>
    by_cases h : p c <;> simp [List.dropWhile_cons, h, ih]

theorem dropWhile_eq_self_of_head {p : Char → Bool} {l : List Char}
    (h : (l.head?).all (fun d => !p d) = true) : l.dropWhile p = l := by
  cases l with
  | nil => rfl
  | cons c t =>
    have : p c = false := by simpa using h
    simp [List.dropWhile_cons, this]

theorem dropWhile_length_le (p : Char → Bool) (l : List Char) :
    (l.dropWhile p).length ≤ l.length := by
  induction l with
  | nil => simp
  | cons c t ih =>
    by_cases h : p c
    · rw [List.dropWhile_cons, if_pos h]
      exact le_trans ih (by simp)
    · rw [List.dropWhile_cons, if_neg h]

theorem mem_dropWhile_of_neg {p : Char → Bool} {c : Char} :
    ∀ {l : List Char}, c ∈ l → p c = false → c ∈ l.dropWhile p := by
  intro l
  induction l with
  | nil => intro hc; simp at hc
  | cons d t ih =>
    intro hc hp
    by_cases hd : p d
    · rcases List.mem_cons.mp hc with h | h
      · subst h; rw [hp] at hd; exact absurd hd (by simp)
      · rw [List.dropWhile_cons, if_pos hd]
        exact ih h hp
    · rw [List.dropWhile_cons, if_neg hd]
      exact hc

theorem not_all_alpha_takeWhile_word {d : Char} :
    ∀ {l : List Char}, (l.dropWhile Char.isAlpha).head? = some d →
      isWordChar d = true → (l.takeWhile isWordChar).all Char.isAlpha = false := by
  intro l
  induction l with
  | nil => intro hd _; simp at hd
  | cons c t ih =>
    intro hd hw
    by_cases ha : c.isAlpha
    · rw [List.dropWhile_cons, if_pos ha] at hd
      rw [List.takeWhile_cons, if_pos (isWordChar_of_isAlpha ha)]
      simp [ha, ih hd hw]
    · rw [List.dropWhile_cons, if_neg ha] at hd
      have hcd : c = d := by simpa using hd
      subst hcd
      rw [List.takeWhile_cons, if_pos hw]
      simp [ha]

/-! ### The scanner `findTokensF` computes `tokensSpec` -/

theorem findTokensF_eq (fuel : Nat) :
    ∀ (l : List Char), l.length ≤ fuel → ∀ b : Bool,
      findTokensF fuel b l =
        if b then tokensSpec (l.dropWhile isWordChar) else tokensSpec l := by
  induction fuel with
  | zero =>
    intro l hl b
    have : l = [] := List.length_eq_zero.mp (Nat.le_zero.mp hl)
    subst this
    cases b <;> simp [findTokensF, tokensSpec, splitChars]
  | succ fuel ih =>
    have ihT : ∀ m : List Char, m.length ≤ fuel →
        findTokensF fuel true m = tokensSpec (m.dropWhile isWordChar) := by
      intro m hm
      simpa using ih m hm true
    have ihF : ∀ m : List Char, m.length ≤ fuel →
        findTokensF fuel false m = tokensSpec m := by
      intro m hm
      simpa using ih m hm false
    have ihB : ∀ (m : List Char) (b : Bool), m.length ≤ fuel →
        findTokensF fuel b m = if b then tokensSpec (m.dropWhile isWordChar) else tokensSpec m :=
      fun m b hm => ih m hm b
    intro l hl b
    cases l with
    | nil => cases b <;> simp [findTokensF, tokensSpec, splitChars]
    | cons c rest =>
      have hrest : rest.length ≤ fuel := by
        simpa using Nat.succ_le_succ_iff.mp hl
      cases b with
      | true =>
        show findTokensF fuel (isWordChar c) rest = tokensSpec ((c :: rest).dropWhile isWordChar)
        rw [ihB rest (isWordChar c) hrest]
        by_cases hw : isWordChar c
        · simp [hw, List.dropWhile_cons]
        · have hw' : isWordChar c = false := by simpa using hw
          simp [hw', List.dropWhile_cons, tokensSpec_sep rest hw']
      | false =>
        show findTokensF (fuel + 1) false (c :: rest) = tokensSpec (c :: rest)
        by_cases ha : c.isAlpha
        · have hcw : isWordChar c = true := isWordChar_of_isAlpha ha
          have hrun : (c :: rest).takeWhile Char.isAlpha = c :: rest.takeWhile Char.isAlpha := by
            rw [List.takeWhile_cons, if_pos ha]
          have hdrop : (c :: rest).dropWhile Char.isAlpha = rest.dropWhile Char.isAlpha := by
            rw [List.dropWhile_cons, if_pos ha]
          have hlen' : (rest.dropWhile Char.isAlpha).length ≤ fuel := by
            have := dropWhile_length_le Char.isAlpha rest
            omega
          by_cases hcond :
              (rest.dropWhile Char.isAlpha).head?.all (fun d => !isWordChar d) = true
          · have heq : findTokensF (fuel + 1) false (c :: rest) =
                (c :: rest.takeWhile Char.isAlpha) ::
                  findTokensF fuel true (rest.dropWhile Char.isAlpha) := by
              simp [findTokensF, ha, hcond]
            rw [heq, ihT _ hlen', dropWhile_eq_self_of_head hcond]
            conv_rhs =>
              rw [← List.takeWhile_append_dropWhile (p := Char.isAlpha) (l := c :: rest)]
            rw [hdrop, hrun]
            rw [tokensSpec_append_run (by simp)
              (by
                intro d hd
                rcases List.mem_cons.mp hd with h | h
                · exact h ▸ hcw
                · exact isWordChar_of_isAlpha (List.mem_takeWhile_imp h))
              hcond]
            rw [if_pos (by simp [ha, all_takeWhile Char.isAlpha rest])]
            simp
          · -- the greedy alphabetic run is followed by a digit or underscore
            obtain ⟨d, hd, hdw⟩ :
                ∃ d, (rest.dropWhile Char.isAlpha).head? = some d ∧
                  isWordChar d = true := by
              cases hcase : (rest.dropWhile Char.isAlpha).head? with
              | none => rw [hcase] at hcond; simp at hcond
              | some d =>
                rw [hcase] at hcond
                simp only [Option.all_some] at hcond
                exact ⟨d, rfl, by simpa using hcond⟩
            have heq : findTokensF (fuel + 1) false (c :: rest) =
                findTokensF fuel true rest := by
              simp [findTokensF, ha, hcond]
            rw [heq, ihT rest hrest]
            have hd' : ((c :: rest).dropWhile Char.isAlpha).head? = some d := by
              rw [hdrop]; exact hd
            have hkeep : ((c :: rest).takeWhile isWordChar).all Char.isAlpha = false :=
              not_all_alpha_takeWhile_word hd' hdw
            conv_rhs =>
              rw [← List.takeWhile_append_dropWhile (p := isWordChar) (l := c :: rest)]
            rw [tokensSpec_append_run (by rw [List.takeWhile_cons, if_pos hcw]; simp)
              (fun d hd => List.mem_takeWhile_imp hd)
              (head?_dropWhile_all isWordChar (c :: rest))]
            rw [if_neg (by simp [hkeep])]
            rw [List.dropWhile_cons, if_pos hcw]
            simp
        · have ha' : c.isAlpha = false := by simpa using ha
          have heq : findTokensF (fuel + 1) false (c :: rest) =
              findTokensF fuel (isWordChar c) rest := by
            simp [findTokensF, ha']
          rw [heq, ihB rest (isWordChar c) hrest]
          by_cases hw : isWordChar c
          · rw [if_pos (by simpa using hw)]
            have hkeep : ((c :: rest).takeWhile isWordChar).all Char.isAlpha = false := by
              rw [List.takeWhile_cons, if_pos hw]
              simp [ha']
            conv_rhs =>
              rw [← List.takeWhile_append_dropWhile (p := isWordChar) (l := c :: rest)]
            rw [tokensSpec_append_run (by rw [List.takeWhile_cons, if_pos hw]; simp)
              (fun d hd => List.mem_takeWhile_imp hd)
              (head?_dropWhile_all isWordChar (c :: rest))]
            rw [if_neg (by simp [hkeep])]
            rw [List.dropWhile_cons, if_pos hw]
            simp
          · have hw' : isWordChar c = false := by simpa using hw
            rw [if_neg (by simp [hw'])]
            rw [tokensSpec_sep rest hw']

/-- The tokenizer equals its run-based characterization. -/
theorem tokenize_eq_tokensSpec (text : List Char) : tokenize text = tokensSpec text :=
  findTokensF_eq text.length text le_rfl false

/-! ### Lemmas for the token/sentence relationship (claim C10) -/

theorem trim_nil : trim ([] : List Char) = [] := rfl

theorem trim_ne_nil_of_mem {r : List Char} {c : Char}
    (hc : c ∈ r) (hs : isPySpace c = false) : trim r ≠ [] := by
  have h1 : c ∈ r.dropWhile isPySpace := mem_dropWhile_of_neg hc hs
  have h2 : c ∈ (r.dropWhile isPySpace).reverse := List.mem_reverse.mpr h1
  have h3 : c ∈ (r.dropWhile isPySpace).reverse.dropWhile isPySpace :=
    mem_dropWhile_of_neg h2 hs
  exact List.ne_nil_of_mem (List.mem_reverse.mpr h3)

theorem isTermChar_eq_false_of_isAlpha {c : Char} (h : c.isAlpha = true) :
    isTermChar c = false := by
  by_contra hc
  have h2 : isTermChar c = true := by simpa using hc
  simp only [isTermChar, Bool.or_eq_true, beq_iff_eq] at h2
  rcases h2 with (h1 | h1) | h1 <;> subst h1 <;> exact absurd h (by decide)

theorem isPySpace_eq_false_of_isAlpha {c : Char} (h : c.isAlpha = true) :
    isPySpace c = false := by
  by_contra hc
  have h2 : isPySpace c = true := by simpa using hc
  simp only [isPySpace, Bool.or_eq_true, beq_iff_eq] at h2
  rcases h2 with ((((h1 | h1) | h1) | h1) | h1) | h1 <;> subst h1 <;>
    exact absurd h (by decide)

theorem split_sentences_ne_nil_of_alpha {text : List Char} {c : Char}
    (hc : c ∈ text) (ha : c.isAlpha = true) : split_sentences text ≠ [] := by
  obtain ⟨r, hr, hcr⟩ := exists_mem_splitChars hc (isTermChar_eq_false_of_isAlpha ha)
  have htrim : trim r ≠ [] := trim_ne_nil_of_mem hcr (isPySpace_eq_false_of_isAlpha ha)
  have hmem : trim r ∈ split_sentences text := by
    simp only [split_sentences]
    refine List.mem_filter.mpr ⟨List.mem_map_of_mem trim hr, ?_⟩
    simpa [List.isEmpty_iff] using htrim
  exact List.ne_nil_of_mem hmem

theorem exists_alpha_of_tokenize_ne_nil {text : List Char} (h : tokenize text ≠ []) :
    ∃ c ∈ text, c.isAlpha = true := by
  rw [tokenize_eq_tokensSpec] at h
  simp only [tokensSpec] at h
  obtain ⟨r, hr⟩ := List.exists_mem_of_ne_nil _ h
  have hr2 := List.mem_filter.mp hr
  have hprop := hr2.2
  simp only [Bool.and_eq_true] at hprop
  cases r with
  | nil => simp at hprop
  | cons x xs =>
    have hx : x.isAlpha = true := by
      have := hprop.2
      simp only [List.all_cons, Bool.and_eq_true] at this
      exact this.1
    exact ⟨x, mem_of_mem_splitChars hr2.1 (List.mem_cons_self _ _), hx⟩

/-! ### The trigram loop equals sliding windows (claim C7) -/

theorem range_map_take_eq_windows3 {α : Type*} :
    ∀ l : List α,
      (List.range (l.length - 2)).map (fun i => (l.drop i).take 3) = windows3 l := by
  intro l
  induction l with
  | nil => simp [windows3]
  | cons a t ih =>
    cases t with
    | nil => simp [windows3]
    | cons b t2 =>
      cases t2 with
      | nil => simp [windows3]
      | cons c t3 =>
        have hlen : (a :: b :: c :: t3).length - 2 = t3.length + 1 := by
          simp only [List.length_cons]
          omega
        have hlen2 : (b :: c :: t3).length - 2 = t3.length := by
          simp only [List.length_cons]
          omega
        rw [hlen, List.range_succ_eq_map, List.map_cons, List.map_map]
        show ((a :: b :: c :: t3).take 3) :: _ = windows3 (a :: b :: c :: t3)
        rw [show windows3 (a :: b :: c :: t3) = [a, b, c] :: windows3 (b :: c :: t3) from rfl]
        rw [show (a :: b :: c :: t3).take 3 = [a, b, c] from rfl]
        congr 1

/-! ### Bounds for the rounding model (claim C9) -/

theorem roundHalfEven_abs_le {α : Type*} [LinearOrderedField α] [FloorRing α] (r : α) :
    |((roundHalfEven r : ℤ) : α) - r| ≤ 1 / 2 := by
  have h1 : ((Int.floor r : ℤ) : α) ≤ r := Int.floor_le r
  have h2 : r < ((Int.floor r : ℤ) : α) + 1 := Int.lt_floor_add_one r
  unfold roundHalfEven
  split_ifs with ha hb hc
  all_goals rw [abs_le]; constructor <;> push_cast <;> linarith

theorem pyRound_one_abs_le {α : Type*} [LinearOrderedField α] [FloorRing α] (x : α) :
    |pyRound x 1 - x| ≤ 1 / 20 := by
  have h := roundHalfEven_abs_le (x * 10 ^ 1)
  have hpos : (0 : α) < 10 ^ 1 := by norm_num
  have heq : pyRound x 1 - x =
      (((roundHalfEven (x * 10 ^ 1) : ℤ) : α) - x * 10 ^ 1) / 10 ^ 1 := by
    unfold pyRound
    field_simp
    ring
  rw [heq, abs_div, abs_of_pos hpos]
  rw [div_le_iff₀ hpos]
  calc |((roundHalfEven (x * 10 ^ 1) : ℤ) : α) - x * 10 ^ 1| ≤ 1 / 2 := h
    _ = 1 / 20 * 10 ^ 1 := by norm_num

theorem round_pair_sum_close (a : ℝ) :
    |pyRound (a * 100) 1 + pyRound ((1 - a) * 100) 1 - 100| ≤ 0.1 := by
  have h1 := pyRound_one_abs_le (α := ℝ) (a * 100)
  have h2 := pyRound_one_abs_le (α := ℝ) ((1 - a) * 100)
  have key : pyRound (a * 100) 1 + pyRound ((1 - a) * 100) 1 - 100 =
      (pyRound (a * 100) 1 - a * 100) + (pyRound ((1 - a) * 100) 1 - (1 - a) * 100) := by
    ring
  rw [key]
  have htri := abs_add (pyRound (a * 100) 1 - a * 100)
    (pyRound ((1 - a) * 100) 1 - (1 - a) * 100)
  have h01 : (0.1 : ℝ) = 1 / 20 + 1 / 20 := by norm_num
  linarith

/-! ### Projections of `predict` on non-degenerate input -/

theorem predict_word_count_of_ne_nil {text : List Char} (h : extract_features text ≠ []) :
    (predict text).word_count = some (tokenize text).length := by
  simp [predict, h]

theorem predict_ai_probability_of_ne_nil {text : List Char} (h : extract_features text ≠ []) :
    (predict text).ai_probability =
      pyRound (ai_probability_raw (extract_features text) * 100) 1 := by
  simp [predict, h]

theorem predict_human_probability_of_ne_nil {text : List Char} (h : extract_features text ≠ []) :
    (predict text).human_probability =
      pyRound (human_probability_raw (extract_features text) * 100) 1 := by
  simp [predict, h]

/-! ### The claims -/

/-- Claim C1: for degenerate input `predict` returns prediction `Unknown`,
confidence 0.0, empty feature summary and the message
`Text too short or invalid for analysis` — but the probabilities it returns
are 0.5 and 0.5 on the 0-1 scale, not 50.0 and 50.0 on the percent scale
that the claim states and that the non-degenerate branch of `predict` uses.
Evaluation of the embedding at the failing input (the empty string). -/
theorem claim_C1 : predict "".toList =
    { prediction := "Unknown", confidence := 0.0, ai_probability := 0.5,
      human_probability := 0.5, word_count := none, features := [],
      message := "Text too short or invalid for analysis" } := rfl

/-- Claim C2, counterexample: at the empty string the result of `predict`
does not contain a `word_count` key at all, so it does not contain a
wordCount field equal to the word-token count in the degenerate case. -/
theorem claim_C2_counterexample : (predict "".toList).word_count = none := rfl

/-- Claim C2, amended: for every non-degenerate input the ScoreResult
contains wordCount = number of word tokens of the full text (a non-negative
integer); the degenerate `Unknown` result omits the wordCount field. -/
theorem claim_C2 (text : List Char) :
    (extract_features text = [] → (predict text).word_count = none) ∧
    (extract_features text ≠ [] →
      (predict text).word_count = some (tokenize text).length) := by
  constructor
  · intro h
    simp [predict, h]
  · intro h
    exact predict_word_count_of_ne_nil h

/-- Witness for claim C2 at the concrete inputs `"a"` and `" "`. -/
theorem claim_C2_witness :
    (predict "a".toList).word_count = some (tokenize "a".toList).length ∧
    (predict " ".toList).word_count = none :=
  ⟨(claim_C2 "a".toList).2 (by decide), (claim_C2 " ".toList).1 (by decide)⟩

/-- Claim C3, counterexample: on `"ab1"` the maximal alphabetic run `ab` is
adjacent to a digit; the spec tokenizer (`alphaRuns`, pattern `[a-zA-Z]+`)
extracts it but `tokenize` (pattern `\b[a-zA-Z]+\b`) returns no token, so
`tokenize` does not return the maximal alphabetic runs. -/
theorem claim_C3_counterexample :
    tokenize "ab1".toList = [] ∧ alphaRuns "ab1".toList = [['a', 'b']] ∧
    tokenize "ab1".toList ≠ alphaRuns "ab1".toList := by decide

/-- Claim C3, amended: `tokenize` returns exactly the maximal word-character
runs (`[A-Za-z0-9_]`) of the text that consist entirely of ASCII letters —
equivalently, the maximal alphabetic runs that are not adjacent to a digit
or an underscore — with case preserved and in order of appearance. -/
theorem claim_C3 (text : List Char) : tokenize text = tokensSpec text :=
  tokenize_eq_tokensSpec text

/-- Claim C4: for every non-empty FeatureVector the scorer computes
logit = 0.4 plus the weighted sum of the 10 normalized features, with
avg_sentence_length normalized as (v-15)/10, avg_word_length as (v-5)/2,
sentence_complexity as (v-1)/2, all other features as-is, and the fixed
weights of the coefficient table; then aiProbability = 1/(1+e^(-logit)) and
humanProbability = 1 - aiProbability. -/
theorem claim_C4 (f : FeatureVals) :
    logit (featureList f) =
      0.4 + 0.025 * ((f.avg_sentence_length - 15) / 10)
        + (-1.5) * f.vocabulary_richness
        + (-0.5) * f.punctuation_density
        + 0.6 * f.conjunction_freq
        + (-1.5) * f.first_person_freq
        + 0.8 * f.passive_voice_freq
        + 0.4 * ((f.avg_word_length - 5) / 2)
        + 0.5 * ((f.sentence_complexity - 1) / 2)
        + 1.0 * f.repetition_score
        + 1.2 * f.formality_score ∧
    ai_probability_raw (featureList f) =
      1 / (1 + Real.exp (-((logit (featureList f) : ℚ) : ℝ))) ∧
    human_probability_raw (featureList f) = 1 - ai_probability_raw (featureList f) :=
  ⟨rfl, rfl, rfl⟩

/-- Claim C5: the prediction label is decided top-down with first match
winning: aiProbability > 0.6 yields `AI` with confidence aiProbability;
otherwise humanProbability > 0.6 yields `Human` with confidence
humanProbability; otherwise `Uncertain` with confidence
max(aiProbability, humanProbability) — in particular, when neither
probability strictly exceeds 0.6 (e.g. exactly at the 0.6/0.4 boundary) the
prediction is `Uncertain`. -/
theorem claim_C5 (ai human : ℝ) :
    (ai > 0.6 → decision_rule ai human = ("AI", ai)) ∧
    (ai ≤ 0.6 → human > 0.6 → decision_rule ai human = ("Human", human)) ∧
    (ai ≤ 0.6 → human ≤ 0.6 → decision_rule ai human = ("Uncertain", max ai human)) := by
  refine ⟨fun h => ?_, fun h1 h2 => ?_, fun h1 h2 => ?_⟩
  · unfold decision_rule
    rw [if_pos h]
  · unfold decision_rule
    rw [if_neg (not_lt.mpr h1), if_pos h2]
  · unfold decision_rule
    rw [if_neg (not_lt.mpr h1), if_neg (not_lt.mpr h2)]

/-- Witness for claim C5, including the exact 0.6/0.4 boundary. -/
theorem claim_C5_witness :
    decision_rule 0.7 0.3 = ("AI", 0.7) ∧
    decision_rule 0.35 0.65 = ("Human", 0.65) ∧
    decision_rule 0.6 0.4 = ("Uncertain", max 0.6 0.4) :=
  ⟨(claim_C5 0.7 0.3).1 (by norm_num),
   (claim_C5 0.35 0.65).2.1 (by norm_num) (by norm_num),
   (claim_C5 0.6 0.4).2.2 (by norm_num) (by norm_num)⟩

/-- Claim C6: `extract_features` returns the empty FeatureVector exactly
when the text is empty or whitespace-only, or yields zero word tokens, or
zero sentences; otherwise it returns a mapping containing all 10 named
feature keys, never a proper non-empty subset. -/
theorem claim_C6 (text : List Char) :
    (extract_features text = [] ↔
      trim text = [] ∨ tokenize text = [] ∨ split_sentences text = []) ∧
    (extract_features text ≠ [] →
      (extract_features text).map Prod.fst =
        ["avg_sentence_length", "vocabulary_richness", "punctuation_density",
         "conjunction_freq", "first_person_freq", "passive_voice_freq",
         "avg_word_length", "sentence_complexity", "repetition_score",
         "formality_score"]) := by
  have hchar : extract_features text = [] ↔
      trim text = [] ∨ tokenize text = [] ∨ split_sentences text = [] := by
    rw [extract_features]
    by_cases h1 : text = [] ∨ trim text = []
    · rw [if_pos h1]
      have htr : trim text = [] := by
        rcases h1 with h1 | h1
        · rw [h1, trim_nil]
        · exact h1
      simp [htr]
    · rw [if_neg h1]
      by_cases h2 : (tokenize text).length = 0 ∨ (split_sentences text).length = 0
      · rw [if_pos h2]
        rw [List.length_eq_zero, List.length_eq_zero] at h2
        rcases h2 with h2 | h2 <;> simp [h2]
      · rw [if_neg h2]
        push_neg at h1 h2
        constructor
        · intro hf
          exact absurd hf (by simp [featureList])
        · intro hr
          rcases hr with hr | hr | hr
          · exact absurd hr h1.2
          · exact absurd (by simp [hr] : (tokenize text).length = 0) h2.1
          · exact absurd (by simp [hr] : (split_sentences text).length = 0) h2.2
  refine ⟨hchar, fun h => ?_⟩
  have h1 : ¬(text = [] ∨ trim text = []) := by
    intro hx
    apply h
    rw [extract_features, if_pos hx]
  have h2 : ¬((tokenize text).length = 0 ∨ (split_sentences text).length = 0) := by
    intro hx
    apply h
    rw [extract_features, if_neg h1, if_pos hx]
  rw [extract_features, if_neg h1, if_neg h2]
  rfl

/-- Witness for claim C6 at the concrete input `"a"`. -/
theorem claim_C6_witness :
    extract_features "a".toList ≠ [] ∧
    (extract_features "a".toList).map Prod.fst =
      ["avg_sentence_length", "vocabulary_richness", "punctuation_density",
       "conjunction_freq", "first_person_freq", "passive_voice_freq",
       "avg_word_length", "sentence_complexity", "repetition_score",
       "formality_score"] :=
  ⟨by decide, (claim_C6 "a".toList).2 (by decide)⟩

/-- Claim C7: repetition_score equals 1 minus the number of distinct
lowercased word-trigrams divided by the total number of word-trigrams,
where the trigrams are the sliding windows of 3 consecutive words joined by
single spaces over the full word sequence; for fewer than 4 words the value
is 0.0. -/
theorem claim_C7 (words : List (List Char)) :
    (words.length < 4 → calculate_repetition words = 0) ∧
    (4 ≤ words.length →
      calculate_repetition words =
        1 - ((specTrigrams words).dedup.length : ℚ) /
          ((specTrigrams words).length : ℚ)) := by
  constructor
  · intro h
    simp only [calculate_repetition]
    rw [if_pos h]
  · intro h
    have htri : (List.range (words.length - 2)).map
        (fun i => lowerList (joinSpace ((words.drop i).take 3))) = specTrigrams words := by
      simp only [specTrigrams]
      rw [← range_map_take_eq_windows3 words, List.map_map]
      rfl
    have hne : (List.range (words.length - 2)).map
        (fun i => lowerList (joinSpace ((words.drop i).take 3))) ≠ [] := by
      intro hx
      have hlen := congrArg List.length hx
      simp only [List.length_map, List.length_range, List.length_nil] at hlen
      omega
    simp only [calculate_repetition]
    rw [if_neg (by omega), if_neg hne, htri]

/-- Witness for claim C7 at the concrete inputs from the spec example
(`test` repeated five times) and the empty word list. -/
theorem claim_C7_witness :
    calculate_repetition (["test", "test", "test", "test", "test"].map String.toList) =
      1 - ((specTrigrams (["test", "test", "test", "test", "test"].map String.toList)).dedup.length : ℚ) /
        ((specTrigrams (["test", "test", "test", "test", "test"].map String.toList)).length : ℚ) ∧
    calculate_repetition ([] : List (List Char)) = 0 :=
  ⟨(claim_C7 (["test", "test", "test", "test", "test"].map String.toList)).2 (by decide),
   (claim_C7 []).1 (by decide)⟩

/-- Claim C8: with at least one word token, formality_score equals
1 - (2 x contraction_ratio + informal_word_ratio) clamped to [0,1]; for any
input whatsoever the value lies in [0,1] inclusive, even when twice the
contraction ratio exceeds 1; with zero words the value is 0.5. -/
theorem calculate_formality_eq (text : List Char) (words : List (List Char))
    (h : words ≠ []) :
    calculate_formality text words =
      max 0 (min 1 (1 -
        (2 * ((countContractions (text.map Char.toLower) : ℚ) / (words.length : ℚ)) +
          ((words.countP (fun w => informalMarkers.contains (lowerList w)) : ℚ) /
            (words.length : ℚ))))) := by
  unfold calculate_formality
  rw [if_neg h]
  show max 0 (min 1 (1 -
    ((countContractions (text.map Char.toLower) : ℚ) / (words.length : ℚ) * 2 +
      ((words.countP (fun w => informalMarkers.contains (lowerList w)) : ℚ) /
        (words.length : ℚ))))) = _
  congr 2
  ring

theorem claim_C8 (text : List Char) (words : List (List Char)) :
    0 ≤ calculate_formality text words ∧ calculate_formality text words ≤ 1 ∧
    (words = [] → calculate_formality text words = 0.5) ∧
    (words ≠ [] →
      calculate_formality text words =
        max 0 (min 1 (1 -
          (2 * ((countContractions (text.map Char.toLower) : ℚ) / (words.length : ℚ)) +
            ((words.countP (fun w => informalMarkers.contains (lowerList w)) : ℚ) /
              (words.length : ℚ)))))) := by
  by_cases h : words = []
  · have hv : calculate_formality text words = 0.5 := by
      unfold calculate_formality
      rw [if_pos h]
    rw [hv]
    exact ⟨by norm_num, by norm_num, fun _ => rfl, fun hne => absurd h hne⟩
  · rw [calculate_formality_eq text words h]
    exact ⟨le_max_left _ _, max_le (by norm_num) (min_le_left _ _),
      fun hx => absurd hx h, fun _ => rfl⟩

/-- Witness for claim C8 at the empty word list and the adversarial
contraction-heavy input. -/
theorem claim_C8_witness :
    calculate_formality [] [] = 0.5 ∧
    calculate_formality "don\x27t".toList (tokenize "don\x27t".toList) =
      max 0 (min 1 (1 -
        (2 * ((countContractions ("don\x27t".toList.map Char.toLower) : ℚ) /
            ((tokenize "don\x27t".toList).length : ℚ)) +
          (((tokenize "don\x27t".toList).countP
              (fun w => informalMarkers.contains (lowerList w)) : ℚ) /
            ((tokenize "don\x27t".toList).length : ℚ))))) :=
  ⟨(claim_C8 [] []).2.2.1 rfl,
   (claim_C8 "don\x27t".toList (tokenize "don\x27t".toList)).2.2.2 (by decide)⟩

/-- Claim C9: for every non-degenerate input text, the reported
aiProbability and humanProbability fields (each times 100, rounded to one
decimal place) sum to 100.0 within a tolerance of 0.1. -/
theorem claim_C9 (text : List Char) (h : extract_features text ≠ []) :
    |(predict text).ai_probability + (predict text).human_probability - 100| ≤ 0.1 := by
  rw [predict_ai_probability_of_ne_nil h, predict_human_probability_of_ne_nil h]
  have hh : human_probability_raw (extract_features text) =
      1 - ai_probability_raw (extract_features text) := rfl
  rw [hh]
  exact round_pair_sum_close (ai_probability_raw (extract_features text))

/-- Witness for claim C9 at the concrete input `"a"`. -/
theorem claim_C9_witness :
    extract_features "a".toList ≠ [] ∧
    |(predict "a".toList).ai_probability + (predict "a".toList).human_probability - 100|
      ≤ 0.1 :=
  ⟨by decide, claim_C9 "a".toList (by decide)⟩

/-- Claim C10: if tokenizing the text yields at least one word token then
splitting the text into sentences yields at least one sentence, so a
non-empty word list guarantees a positive sentence count (and with it a
positive divisor in every per-sentence division of feature extraction). -/
theorem claim_C10 (text : List Char) (h : tokenize text ≠ []) :
    split_sentences text ≠ [] := by
  obtain ⟨c, hc, ha⟩ := exists_alpha_of_tokenize_ne_nil h
  exact split_sentences_ne_nil_of_alpha hc ha

/-- Witness for claim C10 at the concrete input `"Go."`. -/
theorem claim_C10_witness :
    tokenize "Go.".toList ≠ [] ∧ split_sentences "Go.".toList ≠ [] :=
  ⟨by decide, claim_C10 "Go.".toList (by decide)⟩

end AIDetect
